import Mathlib

/-!
Verification of the node-wrapper cache and text-synchronized mutation engine
of a TypeScript AST wrapper library, shallowly embedded from
src/compiler/common/Node.ts (class Node, mixin InitializerExpressionableNode).

Compiler nodes are modelled as finite trees carrying an identity tag, a
syntax-kind tag and the half-open position range [pos, end).  Positions are
integers (JavaScript numbers under arithmetic that never overflows here).
Errors thrown by the source are modelled with an explicit error type and
Except-valued operations.
-/

namespace TsAst

/-- Error taxonomy.  The source constructs errors.InvalidOperationError and
errors.NotImplementedError (via getNotImplementedForSyntaxKindError); the
spec additionally names a NotFound category for the OrThrow query forms,
which is included here so that statements about it can be made. -/
inductive Err where
  | invalidOperation
  | notImplemented
  | notFound
deriving DecidableEq, Repr

/-- A compiler parse-tree node: identity tag (object identity of the raw
compiler node), syntax kind, trivia-inclusive start pos, end, children. -/
inductive CNode where
  | mk (id : Nat) (kind : Nat) (pos : Int) (endPos : Int) (children : List CNode)
deriving Repr

/-- Identity tag of a node (models JavaScript reference identity, which is
what the wrapper cache is keyed on). -/
def CNode.id : CNode → Nat
  | .mk i _ _ _ _ => i

/-- Syntax kind of a node (Node.getKind reads compilerNode.kind). -/
def CNode.kind : CNode → Nat
  | .mk _ k _ _ _ => k

/-- Trivia-inclusive start position (Node.getPos reads compilerNode.pos). -/
def CNode.pos : CNode → Int
  | .mk _ _ p _ _ => p

/-- End position (Node.getEnd reads compilerNode.end). -/
def CNode.endPos : CNode → Int
  | .mk _ _ _ e _ => e

/-- Direct children (compilerNode.getChildren). -/
def CNode.children : CNode → List CNode
  | .mk _ _ _ _ cs => cs

theorem CNode.children_sizeOf_lt {c n : CNode} (h : c ∈ n.children) :
    sizeOf c < sizeOf n := by
  cases n with
  | mk i k p e cs =>
    simp only [CNode.children] at h
    have := List.sizeOf_lt_of_mem h
    simp only [CNode.mk.sizeOf_spec]
    omega

/-- Strong induction over the nested tree: to prove P of every node it
suffices to prove it of a node given it for all the node's children. -/
theorem CNode.inductionOn {P : CNode → Prop}
    (h : ∀ m : CNode, (∀ c ∈ m.children, P c) → P m) : ∀ n, P n := by
  intro n
  generalize hs : sizeOf n = s
  induction s using Nat.strong_induction_on generalizing n with
  | _ s ih =>
    subst hs
    exact h n (fun c hc => ih (sizeOf c) (CNode.children_sizeOf_lt hc) c rfl)

mutual

/-- Node.offsetPositions: this.compilerNode.pos += offset;
this.compilerNode.end += offset; then recursively offset every child.
Embedded functionally: the tree with the updated positions. -/
def offsetPositions (offset : Int) : CNode → CNode
  | .mk i k p e cs => .mk i k (p + offset) (e + offset) (offsetPositionsList offset cs)

/-- Offsets each node of a list of trees (the loop body of offsetPositions). -/
def offsetPositionsList (offset : Int) : List CNode → List CNode
  | [] => []
  | c :: cs => offsetPositions offset c :: offsetPositionsList offset cs

end

mutual

/-- All nodes of the subtree rooted at a node, the node itself included,
in pre-order. -/
def subnodes : CNode → List CNode
  | .mk i k p e cs => .mk i k p e cs :: subnodesList cs

/-- All nodes of the subtrees of a list of trees, in pre-order. -/
def subnodesList : List CNode → List CNode
  | [] => []
  | c :: cs => subnodes c ++ subnodesList cs

end

mutual

/-- Node.getDescendants / getDescendantsIterator: for each child, yield the
child and then the child's descendants.  The node itself is excluded. -/
def descendants : CNode → List CNode
  | .mk _ _ _ _ cs => descendantsList cs

/-- The iterator's loop over the children list. -/
def descendantsList : List CNode → List CNode
  | [] => []
  | c :: cs => c :: (descendants c ++ descendantsList cs)

end

/-- Spec-side description of one offsetting step, for comparison with the
recursive offsetPositions: position fields are shifted by the delta and the
identity, kind and child count are untouched. -/
def ShiftedBy (k : Int) (m m' : CNode) : Prop :=
  m'.id = m.id ∧ m'.kind = m.kind ∧ m'.pos = m.pos + k ∧ m'.endPos = m.endPos + k ∧
    m'.children.length = m.children.length

theorem offsetPositionsList_length (k : Int) :
    ∀ cs : List CNode, (offsetPositionsList k cs).length = cs.length := by
  intro cs
  induction cs with
  | nil => rfl
  | cons c rest ih => simp [offsetPositionsList, ih]

theorem subnodesList_forall2_shifted (k : Int) :
    ∀ cs : List CNode,
      (∀ c ∈ cs, List.Forall₂ (ShiftedBy k) (subnodes c) (subnodes (offsetPositions k c))) →
      List.Forall₂ (ShiftedBy k) (subnodesList cs) (subnodesList (offsetPositionsList k cs)) := by
  intro cs
  induction cs with
  | nil => intro _; simp [subnodesList, offsetPositionsList]
  | cons c rest ih =>
    intro h
    simp only [offsetPositionsList, subnodesList]
    exact List.rel_append (h c (by simp)) (ih (fun d hd => h d (by simp [hd])))

/-- C3: for every node handle and every integer delta k, offsetPositions k
increases the stored pos and the stored end of the node and of every node of
its subtree (recursively through all children) by exactly k and changes
nothing else: the pre-order listing of the offset subtree is node-for-node
the original listing with id, kind and child count unchanged and pos and end
moved by exactly k. -/
theorem c3_offsetPositions_shifts_whole_subtree (k : Int) (n : CNode) :
    List.Forall₂ (ShiftedBy k) (subnodes n) (subnodes (offsetPositions k n)) := by
  induction n using CNode.inductionOn with
  | _ m ih =>
    cases m with
    | mk i kd p e cs =>
      simp only [offsetPositions, subnodes]
      refine List.Forall₂.cons ?_ ?_
      · refine ⟨rfl, rfl, rfl, rfl, ?_⟩
        simp [CNode.children, offsetPositionsList_length]
      · exact subnodesList_forall2_shifted k cs
          (fun c hc => ih c (by simp [CNode.children, hc]))

/-- One observable step of Node.dispose: removing a handle's entry from the
wrapper cache (global.compilerFactory.removeNodeFromCache) or clearing a
handle's node slot (this._compilerNode = undefined). -/
inductive DisposeEvent where
  | removeCache (id : Nat)
  | clearSlot (id : Nat)
deriving DecidableEq, Repr

/-- The identity of the handle an event acts on. -/
def DisposeEvent.nodeId : DisposeEvent → Nat
  | .removeCache i => i
  | .clearSlot i => i

mutual

/-- Node.dispose: for each child, dispose the child recursively; then remove
this handle from the wrapper cache; then clear its node slot.  Embedded as
the sequence of cache and slot events the call performs, in order. -/
def disposeTrace : CNode → List DisposeEvent
  | .mk i _ _ _ cs => disposeTraceList cs ++ [.removeCache i, .clearSlot i]

/-- The dispose loop over a children list, children in order. -/
def disposeTraceList : List CNode → List DisposeEvent
  | [] => []
  | c :: cs => disposeTrace c ++ disposeTraceList cs

end

/-- Wrapper cache and node slots, by handle identity: the ids that have a
cache entry, and the ids whose handle still holds its node. -/
structure CacheState where
  cache : List Nat
  slots : List Nat
deriving DecidableEq, Repr

/-- Effect of one dispose event on the cache state. -/
def applyEvent (s : CacheState) : DisposeEvent → CacheState
  | .removeCache i => { s with cache := s.cache.filter (fun j => j ≠ i) }
  | .clearSlot i => { s with slots := s.slots.filter (fun j => j ≠ i) }

/-- Effect of a sequence of dispose events on the cache state. -/
def applyTrace (s : CacheState) (es : List DisposeEvent) : CacheState :=
  es.foldl applyEvent s

/-- Identities of all nodes of a subtree, the root included. -/
def subtreeIds (n : CNode) : List Nat :=
  (subnodes n).map CNode.id

theorem applyTrace_append (s : CacheState) (es1 es2 : List DisposeEvent) :
    applyTrace s (es1 ++ es2) = applyTrace (applyTrace s es1) es2 := by
  simp [applyTrace, List.foldl_append]

theorem applyTrace_cache_not_mem (es : List DisposeEvent) :
    ∀ s : CacheState, ∀ i, i ∉ s.cache → i ∉ (applyTrace s es).cache := by
  induction es with
  | nil => intro s i h; exact h
  | cons e es ih =>
    intro s i h
    refine ih _ i ?_
    cases e with
    | removeCache j => simp only [applyEvent]; simp_all [List.mem_filter]
    | clearSlot j => simpa [applyEvent] using h

theorem applyTrace_slots_not_mem (es : List DisposeEvent) :
    ∀ s : CacheState, ∀ i, i ∉ s.slots → i ∉ (applyTrace s es).slots := by
  induction es with
  | nil => intro s i h; exact h
  | cons e es ih =>
    intro s i h
    refine ih _ i ?_
    cases e with
    | removeCache j => simpa [applyEvent] using h
    | clearSlot j => simp only [applyEvent]; simp_all [List.mem_filter]

theorem applyTrace_removes_cache (es : List DisposeEvent) :
    ∀ s : CacheState, ∀ i, DisposeEvent.removeCache i ∈ es →
      i ∉ (applyTrace s es).cache := by
  induction es with
  | nil => intro _ _ h; simp at h
  | cons e es ih =>
    intro s i h
    rcases List.mem_cons.mp h with h | h
    · subst h
      refine applyTrace_cache_not_mem es _ i ?_
      simp [applyEvent, List.mem_filter]
    · exact ih _ i h

theorem applyTrace_removes_slot (es : List DisposeEvent) :
    ∀ s : CacheState, ∀ i, DisposeEvent.clearSlot i ∈ es →
      i ∉ (applyTrace s es).slots := by
  induction es with
  | nil => intro _ _ h; simp at h
  | cons e es ih =>
    intro s i h
    rcases List.mem_cons.mp h with h | h
    · subst h
      refine applyTrace_slots_not_mem es _ i ?_
      simp [applyEvent, List.mem_filter]
    · exact ih _ i h

theorem disposeTraceList_decomp (cs : List CNode)
    (h : ∀ c ∈ cs, ∀ i ∈ subtreeIds c,
      ∃ t1 t2, disposeTrace c = t1 ++ DisposeEvent.removeCache i :: DisposeEvent.clearSlot i :: t2) :
    ∀ i ∈ (subnodesList cs).map CNode.id,
      ∃ t1 t2, disposeTraceList cs = t1 ++ DisposeEvent.removeCache i :: DisposeEvent.clearSlot i :: t2 := by
  induction cs with
  | nil => intro i hi; simp [subnodesList] at hi
  | cons c rest ih =>
    intro i hi
    simp only [subnodesList, List.map_append, List.mem_append] at hi
    rcases hi with hi | hi
    · obtain ⟨t1, t2, ht⟩ := h c (by simp) i hi
      exact ⟨t1, t2 ++ disposeTraceList rest, by simp [disposeTraceList, ht]⟩
    · obtain ⟨t1, t2, ht⟩ := ih (fun d hd => h d (by simp [hd])) i hi
      exact ⟨disposeTrace c ++ t1, t2, by simp [disposeTraceList, ht]⟩

theorem disposeTrace_decomp (n : CNode) :
    ∀ i ∈ subtreeIds n,
      ∃ t1 t2, disposeTrace n = t1 ++ DisposeEvent.removeCache i :: DisposeEvent.clearSlot i :: t2 := by
  induction n using CNode.inductionOn with
  | _ m ihm =>
    cases m with
    | mk j k p e cs =>
      intro i hi
      simp only [subtreeIds, subnodes, List.map_cons, List.mem_cons, CNode.id] at hi
      rcases hi with hi | hi
      · subst hi
        exact ⟨disposeTraceList cs, [], by simp [disposeTrace]⟩
      · obtain ⟨t1, t2, ht⟩ := disposeTraceList_decomp cs
          (fun c hc => ihm c (by simp [CNode.children, hc])) i hi
        exact ⟨t1, t2 ++ [DisposeEvent.removeCache j, DisposeEvent.clearSlot j],
          by simp [disposeTrace, ht]⟩

theorem disposeTraceList_ids (cs : List CNode)
    (h : ∀ c ∈ cs, ∀ e ∈ disposeTrace c, DisposeEvent.nodeId e ∈ subtreeIds c) :
    ∀ e ∈ disposeTraceList cs, DisposeEvent.nodeId e ∈ (subnodesList cs).map CNode.id := by
  induction cs with
  | nil => intro e he; simp [disposeTraceList] at he
  | cons c rest ih =>
    intro e he
    simp only [disposeTraceList, List.mem_append] at he
    simp only [subnodesList, List.map_append, List.mem_append]
    rcases he with he | he
    · exact Or.inl (h c (by simp) e he)
    · exact Or.inr (ih (fun d hd => h d (by simp [hd])) e he)

theorem disposeTrace_ids (n : CNode) :
    ∀ e ∈ disposeTrace n, DisposeEvent.nodeId e ∈ subtreeIds n := by
  induction n using CNode.inductionOn with
  | _ m ihm =>
    cases m with
    | mk j k p e cs =>
      intro ev hev
      simp only [disposeTrace, List.mem_append, List.mem_cons] at hev
      simp only [subtreeIds, subnodes, List.map_cons, List.mem_cons, CNode.id]
      rcases hev with hev | hev
      · exact Or.inr (disposeTraceList_ids cs
          (fun c hc => ihm c (by simp [CNode.children, hc])) ev hev)
      · rcases hev with hev | hev | hev
        · subst hev; exact Or.inl rfl
        · subst hev; exact Or.inl rfl
        · simp at hev

/-- A small concrete node tree for instantiating theorems: a root over
[0, 10) with two children, the first of which has a child of its own. -/
def egTree : CNode :=
  .mk 0 300 0 10 [.mk 1 80 0 5 [.mk 3 70 1 4 []], .mk 2 80 5 10 []]

/-- C1: dispose first runs the full recursive disposal of every child, then
removes the handle from the wrapper cache, then clears its node slot; every
handle of the subtree gets its cache removal immediately followed by its
slot clearing; every event before the root's removal belongs to a
descendant; and afterwards no cache entry or filled slot remains for the
handle or any descendant, from any starting cache state. -/
theorem c1_dispose_order_and_completeness (n : CNode) :
    disposeTrace n = disposeTraceList n.children ++
        [DisposeEvent.removeCache n.id, DisposeEvent.clearSlot n.id]
  ∧ (∀ i ∈ subtreeIds n, ∃ t1 t2,
        disposeTrace n = t1 ++ DisposeEvent.removeCache i :: DisposeEvent.clearSlot i :: t2)
  ∧ (∀ e ∈ disposeTraceList n.children,
        DisposeEvent.nodeId e ∈ (subnodesList n.children).map CNode.id)
  ∧ (∀ s : CacheState, ∀ i ∈ subtreeIds n,
        i ∉ (applyTrace s (disposeTrace n)).cache ∧
          i ∉ (applyTrace s (disposeTrace n)).slots) := by
  refine ⟨?_, disposeTrace_decomp n, ?_, ?_⟩
  · cases n with
    | mk j k p e cs => simp [disposeTrace, CNode.children, CNode.id]
  · exact disposeTraceList_ids n.children (fun c _ => disposeTrace_ids c)
  · intro s i hi
    obtain ⟨t1, t2, ht⟩ := disposeTrace_decomp n i hi
    constructor
    · exact applyTrace_removes_cache _ s i (by simp [ht])
    · exact applyTrace_removes_slot _ s i (by simp [ht])

/-- C1, instantiated: disposing the concrete example tree clears the cache
entry and node slot of the grandchild with identity 3 while the unrelated
entry 99 is untouched by the theorem's scope. -/
theorem c1_dispose_order_and_completeness_witness :
    3 ∉ (applyTrace ⟨[0, 1, 2, 3, 99], [0, 1, 2, 3, 99]⟩ (disposeTrace egTree)).cache ∧
      3 ∉ (applyTrace ⟨[0, 1, 2, 3, 99], [0, 1, 2, 3, 99]⟩ (disposeTrace egTree)).slots :=
  (c1_dispose_order_and_completeness egTree).2.2.2 ⟨[0, 1, 2, 3, 99], [0, 1, 2, 3, 99]⟩ 3
    (by decide)

/-- Slice of a text buffer between two positions (the compiler's
getFullText for a node: the characters of [pos, end)). -/
def textSlice (t : List Char) (p e : Int) : List Char :=
  (t.take e.toNat).drop p.toNat

namespace Node

/-- The compilerNode getter: if the internal slot (_compilerNode) is empty
the handle was disposed and the getter throws
InvalidOperationError("Attempted to get information from a node that was
removed from the AST."); otherwise it returns the held node. -/
def compilerNode : Option CNode → Except Err CNode
  | none => .error .invalidOperation
  | some n => .ok n

/-- Node.getKind: this.compilerNode.kind. -/
def getKind (h : Option CNode) : Except Err Nat :=
  (compilerNode h).map CNode.kind

/-- Node.getPos: this.compilerNode.pos. -/
def getPos (h : Option CNode) : Except Err Int :=
  (compilerNode h).map CNode.pos

/-- Node.getEnd: this.compilerNode.end. -/
def getEnd (h : Option CNode) : Except Err Int :=
  (compilerNode h).map CNode.endPos

/-- Node.getChildren: this.compilerNode.getChildren(), each child wrapped
through the cache (the wrapping leaves the underlying nodes unchanged). -/
def getChildren (h : Option CNode) : Except Err (List CNode) :=
  (compilerNode h).map CNode.children

/-- Node.getFullText: the source text between this.compilerNode.pos and
this.compilerNode.end. -/
def getFullText (src : List Char) (h : Option CNode) : Except Err (List Char) :=
  (compilerNode h).map (fun n => textSlice src n.pos n.endPos)

end Node

/-- C2: once a handle is disposed (its node slot cleared) every operation
that reads the underlying node fails fast with InvalidOperation, and on a
live handle none of these operations ever produces that error: each returns
the corresponding datum of the held node. -/
theorem c2_disposed_fails_live_succeeds (h : Option CNode) (src : List Char) :
    (h = none →
      Node.getKind h = .error .invalidOperation ∧
      Node.getPos h = .error .invalidOperation ∧
      Node.getEnd h = .error .invalidOperation ∧
      Node.getChildren h = .error .invalidOperation ∧
      Node.getFullText src h = .error .invalidOperation)
  ∧ (∀ n, h = some n →
      Node.getKind h = .ok n.kind ∧
      Node.getPos h = .ok n.pos ∧
      Node.getEnd h = .ok n.endPos ∧
      Node.getChildren h = .ok n.children ∧
      Node.getFullText src h = .ok (textSlice src n.pos n.endPos)) := by
  constructor
  · intro hnone
    subst hnone
    exact ⟨rfl, rfl, rfl, rfl, rfl⟩
  · intro n hsome
    subst hsome
    exact ⟨rfl, rfl, rfl, rfl, rfl⟩

/-- C2, instantiated: a disposed handle's getKind fails with
InvalidOperation while a live handle over the example tree returns its
kind. -/
theorem c2_disposed_fails_live_succeeds_witness :
    Node.getKind (none : Option CNode) = .error .invalidOperation ∧
      Node.getKind (some egTree) = .ok 300 :=
  ⟨((c2_disposed_fails_live_succeeds none []).1 rfl).1,
    ((c2_disposed_fails_live_succeeds (some egTree) []).2 egTree rfl).1⟩

/-- Node.getChildAtPos: undefined when the offset lies outside this node's
own [pos, end); otherwise the first direct child whose [pos, end) contains
the offset, or undefined when no child does. -/
def getChildAtPos (n : CNode) (p : Int) : Option CNode :=
  if p < n.pos ∨ p ≥ n.endPos then none
  else n.children.find? (fun c => decide (p ≥ c.pos) && decide (p < c.endPos))

theorem getChildAtPos_mem {n : CNode} {p : Int} {c : CNode}
    (h : getChildAtPos n p = some c) : c ∈ n.children := by
  unfold getChildAtPos at h
  split at h
  · exact absurd h (by simp)
  · exact List.mem_of_find?_eq_some h

/-- The while-loop body of Node.getDescendantAtPos: keep replacing the
current node by its child at the offset until there is none. -/
def narrowAtPos (p : Int) (c : CNode) : CNode :=
  match h : getChildAtPos c p with
  | none => c
  | some c2 => narrowAtPos p c2
termination_by sizeOf c
decreasing_by
  exact CNode.children_sizeOf_lt (getChildAtPos_mem h)

/-- Node.getDescendantAtPos: undefined when no direct child contains the
offset; otherwise the result of repeatedly narrowing through
getChildAtPos. -/
def getDescendantAtPos (n : CNode) (p : Int) : Option CNode :=
  match getChildAtPos n p with
  | none => none
  | some c => some (narrowAtPos p c)

theorem getChildAtPos_none_of_outside {n : CNode} {p : Int}
    (h : p < n.pos ∨ n.endPos ≤ p) : getChildAtPos n p = none := by
  unfold getChildAtPos
  rw [if_pos]
  rcases h with h | h
  · exact Or.inl h
  · exact Or.inr h

theorem getChildAtPos_some {n : CNode} {p : Int} {c : CNode}
    (h : getChildAtPos n p = some c) :
    c ∈ n.children ∧ c.pos ≤ p ∧ p < c.endPos ∧ n.pos ≤ p ∧ p < n.endPos := by
  have hmem := getChildAtPos_mem h
  unfold getChildAtPos at h
  split at h
  · exact absurd h (by simp)
  · next hcond =>
    push_neg at hcond
    have hpred := List.find?_some h
    simp only [Bool.and_eq_true, decide_eq_true_eq, ge_iff_le] at hpred
    exact ⟨hmem, hpred.1, hpred.2, hcond.1, hcond.2⟩

theorem getChildAtPos_isSome {n : CNode} {p : Int} {c : CNode}
    (h1 : n.pos ≤ p) (h2 : p < n.endPos) (hc : c ∈ n.children)
    (hc1 : c.pos ≤ p) (hc2 : p < c.endPos) : (getChildAtPos n p).isSome := by
  unfold getChildAtPos
  rw [if_neg (by push_neg; exact ⟨h1, not_lt.mp (by omega)⟩)]
  rw [List.find?_isSome]
  exact ⟨c, hc, by simp [hc1, hc2]⟩

theorem mem_descendantsList_self :
    ∀ cs : List CNode, ∀ c ∈ cs, c ∈ descendantsList cs := by
  intro cs
  induction cs with
  | nil => simp
  | cons c rest ih =>
    intro d hd
    rcases List.mem_cons.mp hd with hd | hd
    · subst hd; simp [descendantsList]
    · simp [descendantsList, ih d hd]

theorem mem_descendantsList_of_descendants :
    ∀ cs : List CNode, ∀ c ∈ cs, ∀ d ∈ descendants c, d ∈ descendantsList cs := by
  intro cs
  induction cs with
  | nil => simp
  | cons c rest ih =>
    intro c2 hc2 d hd
    rcases List.mem_cons.mp hc2 with hc2 | hc2
    · subst hc2; simp [descendantsList, List.mem_append, hd]
    · simp [descendantsList, List.mem_append, ih c2 hc2 d hd]

theorem mem_descendants_of_child {n c : CNode} (h : c ∈ n.children) :
    c ∈ descendants n := by
  cases n with
  | mk i k p e cs =>
    simp only [CNode.children] at h
    simpa [descendants] using mem_descendantsList_self cs c h

theorem mem_descendants_trans {n c d : CNode} (hc : c ∈ n.children)
    (hd : d ∈ descendants c) : d ∈ descendants n := by
  cases n with
  | mk i k p e cs =>
    simp only [CNode.children] at hc
    simpa [descendants] using mem_descendantsList_of_descendants cs c hc d hd

theorem narrowAtPos_of_none {p : Int} {c : CNode}
    (h : getChildAtPos c p = none) : narrowAtPos p c = c := by
  rw [narrowAtPos]
  split
  · rfl
  · next c2 h2 => rw [h] at h2; exact absurd h2 (by simp)

theorem narrowAtPos_of_some {p : Int} {c c2 : CNode}
    (h : getChildAtPos c p = some c2) : narrowAtPos p c = narrowAtPos p c2 := by
  rw [narrowAtPos]
  split
  · next h2 => rw [h] at h2; exact absurd h2 (by simp)
  · next c3 h3 => rw [h] at h3; rw [Option.some.inj h3]

theorem narrowAtPos_spec (p : Int) :
    ∀ c : CNode, c.pos ≤ p → p < c.endPos →
      ((narrowAtPos p c).pos ≤ p ∧ p < (narrowAtPos p c).endPos) ∧
      getChildAtPos (narrowAtPos p c) p = none ∧
      (narrowAtPos p c = c ∨ narrowAtPos p c ∈ descendants c) := by
  intro c
  induction c using CNode.inductionOn with
  | _ m ih =>
    intro h1 h2
    rw [narrowAtPos]
    split
    · next hnone => exact ⟨⟨h1, h2⟩, hnone, Or.inl rfl⟩
    · next c2 hsome =>
      obtain ⟨hmem, hc1, hc2, _, _⟩ := getChildAtPos_some hsome
      obtain ⟨hr, hn, hd⟩ := ih c2 hmem hc1 hc2
      refine ⟨hr, hn, Or.inr ?_⟩
      rcases hd with hd | hd
      · rw [hd]; exact mem_descendants_of_child hmem
      · exact mem_descendants_trans hmem hd

/-- C7: getChildAtPos p returns a direct child whose half-open [pos, end)
contains p exactly when p lies in the node's own range and such a child
exists, and empty otherwise; getDescendantAtPos p narrows repeatedly through
getChildAtPos to the deepest descendant whose range contains p (its own
child-at-pos is empty), and is empty when no direct child contains p. -/
theorem c7_child_and_descendant_at_pos (n : CNode) (p : Int) :
    ((p < n.pos ∨ n.endPos ≤ p) → getChildAtPos n p = none)
  ∧ (∀ c, getChildAtPos n p = some c →
      c ∈ n.children ∧ c.pos ≤ p ∧ p < c.endPos ∧ n.pos ≤ p ∧ p < n.endPos)
  ∧ (n.pos ≤ p → p < n.endPos →
      ∀ c ∈ n.children, c.pos ≤ p → p < c.endPos → (getChildAtPos n p).isSome)
  ∧ (getChildAtPos n p = none → getDescendantAtPos n p = none)
  ∧ (∀ d, getDescendantAtPos n p = some d →
      d ∈ descendants n ∧ d.pos ≤ p ∧ p < d.endPos ∧ getChildAtPos d p = none) := by
  refine ⟨getChildAtPos_none_of_outside, fun c h => getChildAtPos_some h,
    fun h1 h2 c hc hc1 hc2 => getChildAtPos_isSome h1 h2 hc hc1 hc2, ?_, ?_⟩
  · intro h
    unfold getDescendantAtPos
    rw [h]
  · intro d hd
    unfold getDescendantAtPos at hd
    split at hd
    · exact absurd hd (by simp)
    · next c hsome =>
      obtain ⟨hmem, hc1, hc2, _, _⟩ := getChildAtPos_some hsome
      obtain ⟨⟨hd1, hd2⟩, hnone, hdesc⟩ := narrowAtPos_spec p c hc1 hc2
      have heq : narrowAtPos p c = d := by exact Option.some.inj hd
      rw [heq] at hd1 hd2 hnone hdesc
      refine ⟨?_, hd1, hd2, hnone⟩
      rcases hdesc with hdc | hdc
      · rw [hdc]; exact mem_descendants_of_child hmem
      · exact mem_descendants_trans hmem hdc

/-- C7, instantiated: in the example tree the offset 2 lies in the root's
range and in its first child, so getChildAtPos finds a child; and the
descendant found at offset 2 contains the offset and cannot be narrowed
further. -/
theorem c7_child_and_descendant_at_pos_witness :
    (getChildAtPos egTree 2).isSome ∧
      ((CNode.mk 3 70 1 4 []) ∈ descendants egTree ∧
        (CNode.mk 3 70 1 4 [] : CNode).pos ≤ 2 ∧
        (2 : Int) < (CNode.mk 3 70 1 4 [] : CNode).endPos ∧
        getChildAtPos (CNode.mk 3 70 1 4 []) 2 = none) := by
  constructor
  · exact (c7_child_and_descendant_at_pos egTree 2).2.2.1 (by decide) (by decide)
      (CNode.mk 1 80 0 5 [CNode.mk 3 70 1 4 []]) (by simp [egTree, CNode.children])
      (by decide) (by decide)
  · refine (c7_child_and_descendant_at_pos egTree 2).2.2.2.2 (CNode.mk 3 70 1 4 []) ?_
    have h1 : getChildAtPos egTree 2 = some (CNode.mk 1 80 0 5 [CNode.mk 3 70 1 4 []]) := rfl
    have h2 : getChildAtPos (CNode.mk 1 80 0 5 [CNode.mk 3 70 1 4 []]) 2 =
        some (CNode.mk 3 70 1 4 []) := rfl
    have h3 : getChildAtPos (CNode.mk 3 70 1 4 []) 2 = none := rfl
    rw [getDescendantAtPos, h1]
    simp only []
    rw [narrowAtPos_of_some h2, narrowAtPos_of_none h3]

/-- The backward scan of Node.isFirstNodeOnLine: it examines the characters
at indexes i-1, i-2, ..., 0 of the source text, skips spaces and tabs,
returns true at a newline and false at any other character or when the scan
runs past the start of the file.  An index beyond the buffer behaves as
JavaScript undefined does in the source: not a space, tab or newline. -/
def firstOnLineScan (text : List Char) : Nat → Bool
  | 0 => false
  | i + 1 =>
    if text.getD i 'x' = ' ' ∨ text.getD i 'x' = '\t' then firstOnLineScan text i
    else if text.getD i 'x' = '\n' then true
    else false

/-- Node.isFirstNodeOnLine: scan the file text backward starting just
before the node's trivia-exclusive start position. -/
def isFirstNodeOnLine (text : List Char) (startPos : Nat) : Bool :=
  firstOnLineScan text startPos

theorem firstOnLineScan_succ (text : List Char) (i : Nat) :
    firstOnLineScan text (i + 1) =
      if text.getD i 'x' = ' ' ∨ text.getD i 'x' = '\t' then firstOnLineScan text i
      else if text.getD i 'x' = '\n' then true
      else false := rfl

theorem firstOnLineScan_iff (text : List Char) :
    ∀ i, firstOnLineScan text i = true ↔
      ∃ j, j < i ∧ text.getD j 'x' = '\n' ∧
        ∀ l, j < l → l < i → (text.getD l 'x' = ' ' ∨ text.getD l 'x' = '\t') := by
  intro i
  induction i with
  | zero => simp [firstOnLineScan]
  | succ i ih =>
    rw [firstOnLineScan_succ]
    by_cases hsp : text.getD i 'x' = ' ' ∨ text.getD i 'x' = '\t'
    · rw [if_pos hsp, ih]
      constructor
      · rintro ⟨j, hj, hnl, hall⟩
        refine ⟨j, by omega, hnl, fun l hl1 hl2 => ?_⟩
        rcases Nat.lt_or_ge l i with hl | hl
        · exact hall l hl1 hl
        · have hli : l = i := by omega
          subst hli
          exact hsp
      · rintro ⟨j, hj, hnl, hall⟩
        have hji : j ≠ i := by
          intro hji
          subst hji
          rcases hsp with hsp | hsp <;> (rw [hsp] at hnl; exact absurd hnl (by decide))
        exact ⟨j, by omega, hnl, fun l hl1 hl2 => hall l hl1 (by omega)⟩
    · rw [if_neg hsp]
      by_cases hnl : text.getD i 'x' = '\n'
      · rw [if_pos hnl]
        constructor
        · intro _
          exact ⟨i, by omega, hnl, fun l hl1 hl2 => by omega⟩
        · intro _
          rfl
      · rw [if_neg hnl]
        constructor
        · intro hscan
          exact absurd hscan (by decide)
        · rintro ⟨j, hj, hjnl, hall⟩
          exfalso
          rcases Nat.lt_or_ge j i with hji | hji
          · exact hsp (hall i hji (by omega))
          · have hji2 : j = i := by omega
            subst hji2
            exact hnl hjnl

/-- C10: isFirstNodeOnLine is true exactly when scanning backward from the
node's trivia-exclusive start past spaces and tabs reaches a newline; when
the scan reaches the beginning of the file without meeting a newline it is
false, in particular for a node starting at position 0 and for a node
preceded only by spaces or tabs on the first line. -/
theorem c10_isFirstNodeOnLine (text : List Char) (startPos : Nat) :
    isFirstNodeOnLine text 0 = false
  ∧ ((∀ j, j < startPos → (text.getD j 'x' = ' ' ∨ text.getD j 'x' = '\t')) →
      isFirstNodeOnLine text startPos = false)
  ∧ (isFirstNodeOnLine text startPos = true ↔
      ∃ j, j < startPos ∧ text.getD j 'x' = '\n' ∧
        ∀ l, j < l → l < startPos →
          (text.getD l 'x' = ' ' ∨ text.getD l 'x' = '\t')) := by
  refine ⟨rfl, ?_, firstOnLineScan_iff text startPos⟩
  intro hall
  cases hscan : isFirstNodeOnLine text startPos
  · rfl
  · exfalso
    obtain ⟨j, hj, hnl, _⟩ := (firstOnLineScan_iff text startPos).mp hscan
    rcases hall j hj with hsp | hsp <;> (rw [hsp] at hnl; exact absurd hnl (by decide))

/-- C10, instantiated: a node preceded only by two spaces at the start of
the file is not first on its line, while one preceded by spaces after a
newline is. -/
theorem c10_isFirstNodeOnLine_witness :
    isFirstNodeOnLine [' ', ' ', 'x'] 2 = false ∧
      isFirstNodeOnLine ['a', '\n', ' ', 'x'] 3 = true :=
  ⟨(c10_isFirstNodeOnLine [' ', ' ', 'x'] 2).2.1 (by decide),
    (c10_isFirstNodeOnLine ['a', '\n', ' ', 'x'] 3).2.2.mpr
      ⟨1, by decide, by decide, by intro l h1 h2; interval_cases l; decide⟩⟩

/-- Node.getFirstChild: the first direct child satisfying the condition
(a missing condition in the source is the everywhere-true condition). -/
def getFirstChild (cond : CNode → Bool) (n : CNode) : Option CNode :=
  n.children.find? cond

/-- Node.getFirstChildOrThrow: getFirstChild, but throwing
InvalidOperationError("Could not find a child that matched the specified
condition.") when there is none. -/
def getFirstChildOrThrow (cond : CNode → Bool) (n : CNode) : Except Err CNode :=
  match getFirstChild cond n with
  | none => .error .invalidOperation
  | some c => .ok c

/-- Node.getLastChild: the first child of the reversed children list
satisfying the condition. -/
def getLastChild (cond : CNode → Bool) (n : CNode) : Option CNode :=
  n.children.reverse.find? cond

/-- Node.getLastChildOrThrow: getLastChild, but throwing
InvalidOperationError when there is none. -/
def getLastChildOrThrow (cond : CNode → Bool) (n : CNode) : Except Err CNode :=
  match getLastChild cond n with
  | none => .error .invalidOperation
  | some c => .ok c

/-- Node.getFirstDescendant: the first node of the pre-order descendants
iteration satisfying the condition. -/
def getFirstDescendant (cond : CNode → Bool) (n : CNode) : Option CNode :=
  (descendants n).find? cond

/-- Node.getFirstDescendantOrThrow: getFirstDescendant, but throwing
InvalidOperationError when there is none. -/
def getFirstDescendantOrThrow (cond : CNode → Bool) (n : CNode) : Except Err CNode :=
  match getFirstDescendant cond n with
  | none => .error .invalidOperation
  | some c => .ok c

/-- C9 counterexample: on a childless node getFirstChild returns empty and
getFirstChildOrThrow fails, but with the InvalidOperation error, not with a
NotFound error as the claim states. -/
theorem c9_orThrow_counterexample :
    getFirstChild (fun _ => true) (CNode.mk 7 10 0 3 []) = none ∧
      getFirstChildOrThrow (fun _ => true) (CNode.mk 7 10 0 3 []) =
        .error .invalidOperation ∧
      getFirstChildOrThrow (fun _ => true) (CNode.mk 7 10 0 3 []) ≠
        .error .notFound := by
  refine ⟨rfl, rfl, ?_⟩
  intro h
  have h2 : Err.invalidOperation = Err.notFound := by
    have h3 : (Except.error Err.invalidOperation : Except Err CNode) = .error .notFound := h
    exact Except.error.inj h3
  exact absurd h2 (by decide)

/-- C9 amended: every OrThrow query form agrees with its optional-returning
counterpart; when the counterpart returns a node the OrThrow form returns
that same node, and when the counterpart returns empty the OrThrow form
fails with an InvalidOperation error (the error class the code uses; there
is no distinct NotFound error) instead of returning empty. -/
theorem c9_orThrow_agrees_with_counterpart (cond : CNode → Bool) (n : CNode) :
    (∀ c, getFirstChild cond n = some c → getFirstChildOrThrow cond n = .ok c)
  ∧ (getFirstChild cond n = none →
      getFirstChildOrThrow cond n = .error .invalidOperation)
  ∧ (∀ c, getLastChild cond n = some c → getLastChildOrThrow cond n = .ok c)
  ∧ (getLastChild cond n = none →
      getLastChildOrThrow cond n = .error .invalidOperation)
  ∧ (∀ c, getFirstDescendant cond n = some c →
      getFirstDescendantOrThrow cond n = .ok c)
  ∧ (getFirstDescendant cond n = none →
      getFirstDescendantOrThrow cond n = .error .invalidOperation) := by
  refine ⟨fun c h => ?_, fun h => ?_, fun c h => ?_, fun h => ?_, fun c h => ?_, fun h => ?_⟩
  all_goals
    first
    | (unfold getFirstChildOrThrow; rw [h])
    | (unfold getLastChildOrThrow; rw [h])
    | (unfold getFirstDescendantOrThrow; rw [h])

/-- C9 amended, instantiated: on the example tree the OrThrow form returns
the same first child the optional form finds, and on a childless node it
fails with InvalidOperation. -/
theorem c9_orThrow_agrees_with_counterpart_witness :
    getFirstChildOrThrow (fun _ => true) egTree =
        .ok (CNode.mk 1 80 0 5 [CNode.mk 3 70 1 4 []]) ∧
      getFirstChildOrThrow (fun _ => true) (CNode.mk 7 10 0 3 []) =
        .error .invalidOperation :=
  ⟨(c9_orThrow_agrees_with_counterpart (fun _ => true) egTree).1
      (CNode.mk 1 80 0 5 [CNode.mk 3 70 1 4 []]) rfl,
    (c9_orThrow_agrees_with_counterpart (fun _ => true) (CNode.mk 7 10 0 3 [])).2.1 rfl⟩

/-- The numeric tag of ts.SyntaxKind.SyntaxList, the external compiler's
kind for the intermediate list construct grouping sibling nodes. -/
def syntaxListKind : Nat := 324

/-- The loop of Node.getParentSyntaxList over the parent's direct children:
stop with undefined at a child that starts after this node or at this node
itself; return a child that is a SyntaxList whose range covers this node's
range; otherwise continue with the next child.  Reference identity of
handles (child === this) is the equality of the node identity tags. -/
def parentSyntaxListLoop (self : CNode) : List CNode → Option CNode
  | [] => none
  | child :: rest =>
    if child.pos > self.pos ∨ child.id = self.id then none
    else if child.kind = syntaxListKind ∧ child.pos ≤ self.pos ∧ child.endPos ≥ self.endPos then
      some child
    else parentSyntaxListLoop self rest

/-- Node.getParentSyntaxList: undefined when there is no parent, else the
loop over the parent's direct children. -/
def getParentSyntaxList (parent? : Option CNode) (self : CNode) : Option CNode :=
  match parent? with
  | none => none
  | some parent => parentSyntaxListLoop self parent.children

/-- The sibling group through which Node.getPreviousSiblings and
Node.getNextSiblings iterate: the children of
this.getParentSyntaxList() || this.getParentOrThrow(). -/
def siblingGroup (parent self : CNode) : List CNode :=
  match getParentSyntaxList (some parent) self with
  | some l => l.children
  | none => parent.children

/-- Node.getPreviousSiblings: the members of the sibling group before this
node, closest sibling first (the loop prepends each child until it meets
this node). -/
def getPreviousSiblings (parent self : CNode) : List CNode :=
  ((siblingGroup parent self).takeWhile (fun c => c.id != self.id)).reverse

/-- Node.getNextSiblings: the members of the sibling group after this node,
in order (the loop skips until it has met this node, then collects). -/
def getNextSiblings (parent self : CNode) : List CNode :=
  ((siblingGroup parent self).dropWhile (fun c => c.id != self.id)).drop 1

theorem parentSyntaxListLoop_some_spec (self : CNode) :
    ∀ cs : List CNode, ∀ l, parentSyntaxListLoop self cs = some l →
      l ∈ cs ∧ l.kind = syntaxListKind ∧ l.pos ≤ self.pos ∧ self.endPos ≤ l.endPos := by
  intro cs
  induction cs with
  | nil => intro l h; exact absurd h (by simp [parentSyntaxListLoop])
  | cons c rest ih =>
    intro l h
    unfold parentSyntaxListLoop at h
    split at h
    · exact absurd h (by simp)
    · split at h
      · next hcond =>
        rw [Option.some.inj h] at hcond ⊢
        exact ⟨by simp, hcond.1, hcond.2.1, hcond.2.2⟩
      · obtain ⟨hmem, hrest⟩ := ih l h
        exact ⟨by simp [hmem], hrest⟩

theorem parentSyntaxListLoop_finds (self : CNode) :
    ∀ cs : List CNode, List.Pairwise (fun a b => a.pos ≤ b.pos) cs →
      (∀ c ∈ cs, c.id ≠ self.id) →
      ∀ l ∈ cs, l.kind = syntaxListKind → l.pos ≤ self.pos → self.endPos ≤ l.endPos →
      ∃ l2, parentSyntaxListLoop self cs = some l2 := by
  intro cs
  induction cs with
  | nil => intro _ _ l hl; exact absurd hl (by simp)
  | cons c rest ih =>
    intro hsorted hnotself l hl hk hp he
    have hlc : l.pos ≤ self.pos := hp
    have hcpos : c.pos ≤ self.pos := by
      rcases List.mem_cons.mp hl with hl2 | hl2
      · rw [← hl2]; exact hp
      · exact le_trans ((List.pairwise_cons.mp hsorted).1 l hl2) hp
    unfold parentSyntaxListLoop
    rw [if_neg (by
      push_neg
      exact ⟨hcpos, hnotself c (by simp)⟩)]
    by_cases hsucc : c.kind = syntaxListKind ∧ c.pos ≤ self.pos ∧ c.endPos ≥ self.endPos
    · rw [if_pos hsucc]
      exact ⟨c, rfl⟩
    · rw [if_neg hsucc]
      have hlrest : l ∈ rest := by
        rcases List.mem_cons.mp hl with hl2 | hl2
        · exfalso
          rw [hl2] at hk hp he
          exact hsucc ⟨hk, hp, he⟩
        · exact hl2
      exact ih (List.pairwise_cons.mp hsorted).2
        (fun d hd => hnotself d (by simp [hd])) l hlrest hk hp he

/-- C8: sibling navigation resolves through an intermediate syntax list
when one exists.  Whenever getParentSyntaxList finds a list it is a direct
child of the parent of syntax-list kind whose range covers the node, and
the sibling group iterated by getPreviousSiblings/getNextSiblings is that
list's children; such a list is found whenever one exists among the
parent's children (the children being ordered by position and the node not
itself a direct child); and with no list found the sibling group is the
parent's direct children. -/
theorem c8_sibling_group_via_syntax_list (parent self : CNode) :
    (∀ l, getParentSyntaxList (some parent) self = some l →
      l ∈ parent.children ∧ l.kind = syntaxListKind ∧
        l.pos ≤ self.pos ∧ self.endPos ≤ l.endPos ∧
        siblingGroup parent self = l.children ∧
        getPreviousSiblings parent self =
          (l.children.takeWhile (fun c => c.id != self.id)).reverse ∧
        getNextSiblings parent self =
          (l.children.dropWhile (fun c => c.id != self.id)).drop 1)
  ∧ (List.Pairwise (fun a b => a.pos ≤ b.pos) parent.children →
      (∀ c ∈ parent.children, c.id ≠ self.id) →
      (∃ l ∈ parent.children, l.kind = syntaxListKind ∧
        l.pos ≤ self.pos ∧ self.endPos ≤ l.endPos) →
      ∃ l, getParentSyntaxList (some parent) self = some l)
  ∧ (getParentSyntaxList (some parent) self = none →
      siblingGroup parent self = parent.children ∧
      getPreviousSiblings parent self =
        (parent.children.takeWhile (fun c => c.id != self.id)).reverse ∧
      getNextSiblings parent self =
        (parent.children.dropWhile (fun c => c.id != self.id)).drop 1) := by
  refine ⟨?_, ?_, ?_⟩
  · intro l h
    have h2 : parentSyntaxListLoop self parent.children = some l := h
    obtain ⟨hmem, hk, hp, he⟩ := parentSyntaxListLoop_some_spec self parent.children l h2
    have hgroup : siblingGroup parent self = l.children := by
      unfold siblingGroup
      rw [h]
    refine ⟨hmem, hk, hp, he, hgroup, ?_, ?_⟩
    · unfold getPreviousSiblings
      rw [hgroup]
    · unfold getNextSiblings
      rw [hgroup]
  · rintro hsorted hnotself ⟨l, hl, hk, hp, he⟩
    exact parentSyntaxListLoop_finds self parent.children hsorted hnotself l hl hk hp he
  · intro h
    have hgroup : siblingGroup parent self = parent.children := by
      unfold siblingGroup
      rw [h]
    refine ⟨hgroup, ?_, ?_⟩
    · unfold getPreviousSiblings
      rw [hgroup]
    · unfold getNextSiblings
      rw [hgroup]

/-- C8, instantiated: in a parent whose second child is a syntax list
covering the node, the list is found, and the node's siblings are the
list's other children. -/
theorem c8_sibling_group_via_syntax_list_witness :
    (∃ l, getParentSyntaxList
      (some (CNode.mk 10 200 0 10
        [CNode.mk 11 20 0 1 [],
         CNode.mk 12 324 1 9 [CNode.mk 21 80 1 4 [], CNode.mk 20 80 4 7 [], CNode.mk 22 80 7 9 []],
         CNode.mk 13 21 9 10 []]))
      (CNode.mk 20 80 4 7 []) = some l) := by
  refine (c8_sibling_group_via_syntax_list _ _).2.1 ?_ ?_ ?_
  · simp only [CNode.children]
    refine List.Pairwise.cons ?_ (List.Pairwise.cons ?_ (List.Pairwise.cons ?_ List.Pairwise.nil))
    · intro b hb
      rcases List.mem_cons.mp hb with hb | hb
      · rw [hb]; decide
      · rcases List.mem_cons.mp hb with hb | hb
        · rw [hb]; decide
        · simp at hb
    · intro b hb
      rcases List.mem_cons.mp hb with hb | hb
      · rw [hb]; decide
      · simp at hb
    · intro b hb
      simp at hb
  · intro c hc
    simp only [CNode.children] at hc
    rcases List.mem_cons.mp hc with hc | hc
    · rw [hc]; decide
    · rcases List.mem_cons.mp hc with hc | hc
      · rw [hc]; decide
      · rcases List.mem_cons.mp hc with hc | hc
        · rw [hc]; decide
        · simp at hc
  · refine ⟨CNode.mk 12 324 1 9
      [CNode.mk 21 80 1 4 [], CNode.mk 20 80 4 7 [], CNode.mk 22 80 7 9 []], ?_, ?_, ?_, ?_⟩
    · simp [CNode.children]
    · decide
    · decide
    · decide

/-- The numeric tag of ts.SyntaxKind.FirstAssignment, the kind of the
EqualsToken the source checks the initializer's previous sibling against. -/
def firstAssignmentKind : Nat := 63

/-- Modelled from the spec: the backward scan of the removal mechanism's
removePrecedingSpaces option (removeChildren is imported from the
manipulation module, which is not part of the excerpt): the start of the
run of spaces and tabs immediately before the given position. -/
def skipSpacesBack (buffer : List Char) : Nat → Nat
  | 0 => 0
  | i + 1 =>
    if buffer.getD i 'x' = ' ' ∨ buffer.getD i 'x' = '\t' then skipSpacesBack buffer i
    else i + 1

/-- Modelled from the spec: the Text Edit Engine's single splice (step 1 of
section 4.3): replace the byte range [pos, endPos) of the buffer by the new
text.  Both removeChildren and insertIntoParent funnel into this. -/
def spliceText (buffer : List Char) (pos endPos : Nat) (newText : List Char) : List Char :=
  buffer.take pos ++ newText ++ buffer.drop endPos

/-- Modelled from the spec: errors.throwIfNotStringOrWhitespace (imported
from the errors module, not part of the excerpt) rejects a blank — empty or
whitespace-only — text value. -/
def isBlank (text : List Char) : Bool :=
  text.all (fun c => c == ' ' || c == '\t' || c == '\n' || c == '\r')

/-- The view of an initializer-expressionable declaration read by
removeInitializer and setInitializer: the file's text buffer, the
initializer's [pos, end) range when one is present
(compilerNode.initializer), the kind and trivia-inclusive start of the
initializer's previous sibling, the start of the node's last child when it
is a SemicolonToken (getLastChildIfKind), and the node's end position. -/
structure InitNode where
  buffer : List Char
  initializer : Option (Nat × Nat)
  prevSibling : Option (Nat × Nat)
  semicolonPos : Option Nat
  nodeEnd : Nat
deriving DecidableEq, Repr

/-- InitializerExpressionableNode.hasInitializer:
this.compilerNode.initializer != null. -/
def hasInitializer (n : InitNode) : Bool :=
  n.initializer.isSome

/-- InitializerExpressionableNode.removeInitializer: return unchanged when
there is no initializer; throw NotImplemented when the initializer's
previous sibling is missing or is not the FirstAssignment token; otherwise
remove the previous sibling and the initializer together with the spaces
preceding them in one splice (removeChildren with removePrecedingSpaces),
the retained positions after the removed span shifting left by its length
(the reconciliation of section 4.3, spec-modelled). -/
def removeInitializer (n : InitNode) : Except Err InitNode :=
  match n.initializer with
  | none => .ok n
  | some (_, initEnd) =>
    match n.prevSibling with
    | none => .error .notImplemented
    | some (k, prevPos) =>
      if k ≠ firstAssignmentKind then .error .notImplemented
      else
        let start := skipSpacesBack n.buffer prevPos
        let len := initEnd - start
        .ok { buffer := spliceText n.buffer start initEnd [],
              initializer := none,
              prevSibling := none,
              semicolonPos := n.semicolonPos.map (fun p => p - len),
              nodeEnd := n.nodeEnd - len }

/-- InitializerExpressionableNode.setInitializer: reject a blank text value
(throwIfNotStringOrWhitespace) before any edit; remove any existing
initializer first; then insert " = " followed by the text at the trailing
semicolon token's position when the node has one, else at the node's end
(insertIntoParent, spec-modelled as the splice).  The resulting buffer is
returned. -/
def setInitializer (text : List Char) (n : InitNode) : Except Err (List Char) :=
  if isBlank text then .error .invalidOperation
  else
    match (if hasInitializer n then removeInitializer n else .ok n) with
    | .error e => .error e
    | .ok n1 =>
      let insertPos := n1.semicolonPos.getD n1.nodeEnd
      .ok (spliceText n1.buffer insertPos insertPos ([' ', '=', ' '] ++ text))

theorem skipSpacesBack_le (buffer : List Char) : ∀ i, skipSpacesBack buffer i ≤ i := by
  intro i
  induction i with
  | zero => simp [skipSpacesBack]
  | succ i ih =>
    unfold skipSpacesBack
    split
    · omega
    · omega

theorem skipSpacesBack_spaces (buffer : List Char) :
    ∀ i, ∀ l, skipSpacesBack buffer i ≤ l → l < i →
      (buffer.getD l 'x' = ' ' ∨ buffer.getD l 'x' = '\t') := by
  intro i
  induction i with
  | zero => intro l h1 h2; omega
  | succ i ih =>
    intro l h1 h2
    unfold skipSpacesBack at h1
    split at h1
    · next hsp =>
      rcases Nat.lt_or_ge l i with hl | hl
      · exact ih l h1 hl
      · have hli : l = i := by omega
        subst hli
        exact hsp
    · omega

theorem skipSpacesBack_stop (buffer : List Char) :
    ∀ i, skipSpacesBack buffer i = 0 ∨
      (buffer.getD (skipSpacesBack buffer i - 1) 'x' ≠ ' ' ∧
        buffer.getD (skipSpacesBack buffer i - 1) 'x' ≠ '\t') := by
  intro i
  induction i with
  | zero => exact Or.inl rfl
  | succ i ih =>
    unfold skipSpacesBack
    split
    · exact ih
    · next hsp =>
      push_neg at hsp
      exact Or.inr (by simpa using hsp)

theorem removeInitializer_eq_ok (n : InitNode) (initPos initEnd prevPos : Nat)
    (hinit : n.initializer = some (initPos, initEnd))
    (hprev : n.prevSibling = some (firstAssignmentKind, prevPos)) :
    removeInitializer n = .ok
      { buffer := n.buffer.take (skipSpacesBack n.buffer prevPos) ++ n.buffer.drop initEnd,
        initializer := none,
        prevSibling := none,
        semicolonPos := n.semicolonPos.map
          (fun p => p - (initEnd - skipSpacesBack n.buffer prevPos)),
        nodeEnd := n.nodeEnd - (initEnd - skipSpacesBack n.buffer prevPos) } := by
  unfold removeInitializer
  rw [hinit, hprev]
  simp [spliceText]

/-- Local shorthand: a node with this initializer view. -/
def egInit : InitNode :=
  ⟨['x', ' ', '=', ' ', '1', ';'], some (3, 5), some (63, 1), some 5, 6⟩

/-- C5: removeInitializer on a node that has an initializer succeeds (when
the initializer's previous sibling is the FirstAssignment token) and its
single splice deletes the combined range of the preceding token and the
initializer together with the run of spaces and tabs immediately before the
token: the new buffer is the text before that run followed by the text from
the initializer's end, the skipped prefix consists only of spaces and tabs,
and the run is maximal. -/
theorem c5_removeInitializer_deletes_token_and_range
    (n : InitNode) (initPos initEnd prevPos : Nat)
    (hinit : n.initializer = some (initPos, initEnd))
    (hprev : n.prevSibling = some (firstAssignmentKind, prevPos)) :
    ∃ n1, removeInitializer n = .ok n1 ∧
      n1.buffer = n.buffer.take (skipSpacesBack n.buffer prevPos) ++
        n.buffer.drop initEnd ∧
      n1.initializer = none ∧
      skipSpacesBack n.buffer prevPos ≤ prevPos ∧
      (∀ l, skipSpacesBack n.buffer prevPos ≤ l → l < prevPos →
        (n.buffer.getD l 'x' = ' ' ∨ n.buffer.getD l 'x' = '\t')) ∧
      (skipSpacesBack n.buffer prevPos = 0 ∨
        (n.buffer.getD (skipSpacesBack n.buffer prevPos - 1) 'x' ≠ ' ' ∧
          n.buffer.getD (skipSpacesBack n.buffer prevPos - 1) 'x' ≠ '\t')) :=
  ⟨_, removeInitializer_eq_ok n initPos initEnd prevPos hinit hprev, rfl, rfl,
    skipSpacesBack_le n.buffer prevPos, skipSpacesBack_spaces n.buffer prevPos,
    skipSpacesBack_stop n.buffer prevPos⟩

/-- C5, instantiated: removing the initializer of the declaration rendered
as "x = 1;" yields the buffer "x;". -/
theorem c5_removeInitializer_deletes_token_and_range_witness :
    ∃ n1, removeInitializer egInit = Except.ok n1 ∧ n1.buffer = ['x', ';'] := by
  obtain ⟨n1, h1, h2, _⟩ :=
    c5_removeInitializer_deletes_token_and_range egInit 3 5 1 rfl rfl
  refine ⟨n1, h1, ?_⟩
  rw [h2]
  decide

/-- C6: removeInitializer is idempotent: on a node without an initializer
it performs no edit and raises no error, returning the node unchanged; and
after any successful removal a second call is such a no-op. -/
theorem c6_removeInitializer_idempotent (n : InitNode) :
    (hasInitializer n = false → removeInitializer n = .ok n)
  ∧ (∀ n1, removeInitializer n = .ok n1 → removeInitializer n1 = .ok n1) := by
  constructor
  · intro h
    cases hi : n.initializer with
    | none => unfold removeInitializer; rw [hi]
    | some v =>
      rw [hasInitializer, hi] at h
      simp at h
  · intro n1 h
    cases hi : n.initializer with
    | none =>
      have hok : removeInitializer n = .ok n := by
        unfold removeInitializer
        rw [hi]
      rw [hok] at h
      have hn : n = n1 := Except.ok.inj h
      subst hn
      exact hok
    | some v =>
      obtain ⟨ip, ie⟩ := v
      cases hp : n.prevSibling with
      | none =>
        have herr : removeInitializer n = .error .notImplemented := by
          unfold removeInitializer
          rw [hi, hp]
        rw [herr] at h
        exact absurd h (by simp)
      | some w =>
        obtain ⟨k, pp⟩ := w
        by_cases hk : k = firstAssignmentKind
        · subst hk
          have hok := removeInitializer_eq_ok n ip ie pp hi hp
          rw [hok] at h
          have hn1 := Except.ok.inj h
          rw [← hn1]
          unfold removeInitializer
          rfl
        · have herr : removeInitializer n = .error .notImplemented := by
            unfold removeInitializer
            rw [hi, hp]
            simp [hk]
          rw [herr] at h
          exact absurd h (by simp)

/-- C6, instantiated: on the already-removed state of the "x = 1;" node
(buffer "x;", no initializer), removeInitializer is a no-op without
error. -/
theorem c6_removeInitializer_idempotent_witness :
    removeInitializer ⟨['x', ';'], none, none, some 1, 2⟩ =
      Except.ok ⟨['x', ';'], none, none, some 1, 2⟩ :=
  (c6_removeInitializer_idempotent egInit).2 ⟨['x', ';'], none, none, some 1, 2⟩ rfl

/-- C4: setInitializer rejects a blank (empty or whitespace-only) text with
InvalidOperation before performing any edit; on a node without an
initializer it splices " = " followed by the text at the trailing semicolon
token's position when the node has one and at the node's end otherwise; and
on a node with an initializer it first runs the full removal and then
performs the same insertion on the removed state, so that (when the
semicolon is present) the final buffer is the text before the removed span,
then the text between the initializer's end and the semicolon, then
" = " and the new text, then the text from the semicolon on. -/
theorem c4_setInitializer_behavior (t : List Char) (n : InitNode) :
    (isBlank t = true → setInitializer t n = .error .invalidOperation)
  ∧ (isBlank t = false → hasInitializer n = false → ∀ sp, n.semicolonPos = some sp →
      setInitializer t n =
        .ok (n.buffer.take sp ++ ([' ', '=', ' '] ++ t) ++ n.buffer.drop sp))
  ∧ (isBlank t = false → hasInitializer n = false → n.semicolonPos = none →
      setInitializer t n =
        .ok (n.buffer.take n.nodeEnd ++ ([' ', '=', ' '] ++ t) ++ n.buffer.drop n.nodeEnd))
  ∧ (isBlank t = false → hasInitializer n = true →
      ∀ n1, removeInitializer n = .ok n1 →
      setInitializer t n =
        .ok (n1.buffer.take (n1.semicolonPos.getD n1.nodeEnd) ++ ([' ', '=', ' '] ++ t) ++
          n1.buffer.drop (n1.semicolonPos.getD n1.nodeEnd)))
  ∧ (∀ initPos initEnd prevPos sp,
      isBlank t = false →
      n.initializer = some (initPos, initEnd) →
      n.prevSibling = some (firstAssignmentKind, prevPos) →
      n.semicolonPos = some sp →
      prevPos ≤ initEnd → initEnd ≤ sp → sp ≤ n.buffer.length →
      setInitializer t n =
        .ok (n.buffer.take (skipSpacesBack n.buffer prevPos) ++
          (n.buffer.drop initEnd).take (sp - initEnd) ++ ([' ', '=', ' '] ++ t) ++
          n.buffer.drop sp)) := by
  refine ⟨?_, ?_, ?_, ?_, ?_⟩
  · intro hb
    unfold setInitializer
    rw [hb]
    rfl
  · intro hb hinit sp hsp
    unfold setInitializer
    rw [hb]
    simp only [Bool.false_eq_true, if_false, hinit, spliceText, hsp]
    rfl
  · intro hb hinit hsp
    unfold setInitializer
    rw [hb]
    simp only [Bool.false_eq_true, if_false, hinit, spliceText, hsp]
    rfl
  · intro hb hinit n1 hrem
    have hif : (if hasInitializer n then removeInitializer n else Except.ok n) =
        Except.ok n1 := (if_pos hinit).trans hrem
    unfold setInitializer
    rw [hb]
    simp only [Bool.false_eq_true, if_false, hif, spliceText]
  · intro initPos initEnd prevPos sp hb hinit hprev hsemi hpi his hsl
    have hrem := removeInitializer_eq_ok n initPos initEnd prevPos hinit hprev
    have hhi : hasInitializer n = true := by rw [hasInitializer, hinit]; rfl
    have hws_prev := skipSpacesBack_le n.buffer prevPos
    have hwsi : skipSpacesBack n.buffer prevPos ≤ initEnd := le_trans hws_prev hpi
    have hwsl : skipSpacesBack n.buffer prevPos ≤ n.buffer.length :=
      le_trans (le_trans hwsi his) hsl
    have hA : (n.buffer.take (skipSpacesBack n.buffer prevPos)).length =
        skipSpacesBack n.buffer prevPos := List.length_take_of_le hwsl
    have hif : (if hasInitializer n then removeInitializer n else Except.ok n) =
        removeInitializer n := if_pos hhi
    unfold setInitializer
    rw [hb]
    simp only [Bool.false_eq_true, if_false]
    rw [hif, hrem]
    have hq : sp - (initEnd - skipSpacesBack n.buffer prevPos) =
        (n.buffer.take (skipSpacesBack n.buffer prevPos)).length + (sp - initEnd) := by
      rw [hA]
      omega
    simp only [hsemi, Option.map_some', Option.getD_some, spliceText]
    rw [hq, List.take_append, List.drop_append, List.drop_drop]
    have hse : initEnd + (sp - initEnd) = sp := by omega
    rw [hse]

/-- C4, instantiated: on the declaration rendered as "x;" (no initializer,
trailing semicolon at offset 1), setting the initializer to "2" produces
the buffer "x = 2;", and a blank text is rejected with InvalidOperation. -/
theorem c4_setInitializer_behavior_witness :
    setInitializer ['2'] ⟨['x', ';'], none, none, some 1, 2⟩ =
        Except.ok ['x', ' ', '=', ' ', '2', ';'] ∧
      setInitializer [' '] ⟨['x', ';'], none, none, some 1, 2⟩ =
        Except.error Err.invalidOperation := by
  constructor
  · have h := (c4_setInitializer_behavior ['2'] ⟨['x', ';'], none, none, some 1, 2⟩).2.1
      (by decide) (by decide) 1 rfl
    rw [h]
    rfl
  · exact (c4_setInitializer_behavior [' '] ⟨['x', ';'], none, none, some 1, 2⟩).1 (by decide)

end TsAst
